import Mathlib

/-!
Verification of the OpenFOAM document-symbol scanner
(`src/foamstudio/src/extension.ts`, class `OpenFOAMSymbolProvider`).

A document is modelled as the list of its lines, each line a `List Char`
(the raw text of the line, without a line terminator, exactly what the
host's `document.lineAt(i).text` yields).  The provider's regular
expressions are embedded as deterministic matchers: each of the five
patterns is anchored at the start and, as traced through the JS regex
backtracking semantics, is equivalent to a greedy longest-run scan
(shrinking a `\w*`/`\s*` run can never enable a later literal to match,
because the characters given back can never equal that literal).
-/

namespace FoamStudio

/-- JS whitespace characters relevant to single text lines (`\s`, `trim`). -/
def isWsChar (c : Char) : Bool :=
  c == ' ' || c == '\t' || c == '\n' || c == '\r' || c == '\x0b' || c == '\x0c'

/-- `String.prototype.trim`. -/
def trimChars (l : List Char) : List Char :=
  ((l.dropWhile isWsChar).reverse.dropWhile isWsChar).reverse

/-- `text.startsWith(p)` on char lists (first argument is the pattern). -/
def startsWithChars : List Char → List Char → Bool
  | [], _ => true
  | _ :: _, [] => false
  | p :: ps, c :: cs => p == c && startsWithChars ps cs

/-- `line.firstNonWhitespaceCharacterIndex`. -/
def indentOf (l : List Char) : Nat := (l.takeWhile isWsChar).length

/-- ASCII lower-casing, used for the case-insensitive `/i` regex flag. -/
def lowerChar (c : Char) : Char :=
  if 'A' ≤ c ∧ c ≤ 'Z' then Char.ofNat (c.toNat + 32) else c

/-- Case-insensitive literal match at the start of the text; returns the
matched characters (in their original case, as a JS capture group would)
and the remaining text. -/
def icStarts : List Char → List Char → Option (List Char × List Char)
  | [], rest => some ([], rest)
  | _ :: _, [] => none
  | p :: ps, c :: cs =>
    if lowerChar c == lowerChar p then
      match icStarts ps cs with
      | some (m, r) => some (c :: m, r)
      | none => none
    else none

def isAsciiLetter (c : Char) : Bool :=
  decide ('a' ≤ c ∧ c ≤ 'z') || decide ('A' ≤ c ∧ c ≤ 'Z')

def isDigitChar (c : Char) : Bool := decide ('0' ≤ c ∧ c ≤ '9')

/-- The regex `\w` class. -/
def isWordChar (c : Char) : Bool := isAsciiLetter c || isDigitChar c || c == '_'

/-- The `[\w.]` class of `KV_REGEX` identifiers. -/
def isKvIdentChar (c : Char) : Bool := isWordChar c || c == '.'

/-- `text.endsWith(';')`. -/
def endsWithSemi (t : List Char) : Bool :=
  match t.getLast? with
  | some c => c == ';'
  | none => false

/-- `text.includes(c)` for a single character. -/
def hasChar (c : Char) (l : List Char) : Bool := l.any (fun x => x == c)

/-- Number of occurrences of `c` in the line
(`(line.match(new RegExp('\\' + c, 'g')) || []).length`). -/
def countChar (c : Char) (l : List Char) : Nat :=
  (l.filter (fun x => x == c)).length

/-! ## The five line patterns -/

/-- The alternatives of
`EDGES_REGEX = /^(edges|faces|points|internalField|boundary)\s*(\{|$|;)/i`,
in source order. -/
def edgesKeywords : List (List Char) :=
  ["edges".toList, "faces".toList, "points".toList,
   "internalField".toList, "boundary".toList]

/-- After the matched keyword: `\s*` then `(\{|$|;)`. -/
def edgesTailOk (r : List Char) : Bool :=
  match r.dropWhile isWsChar with
  | [] => true
  | c :: _ => c == '{' || c == ';'

def edgesMatchAux : List (List Char) → List Char → Option (List Char)
  | [], _ => none
  | k :: ks, t =>
    match icStarts k t with
    | some (m, r) => if edgesTailOk r then some m else edgesMatchAux ks t
    | none => edgesMatchAux ks t

/-- `text.match(EDGES_REGEX)`, yielding capture group 1. -/
def edgesMatch (t : List Char) : Option (List Char) :=
  edgesMatchAux edgesKeywords t

/-- `text.match(NAMED_BLOCK_REGEX)` with
`NAMED_BLOCK_REGEX = /^([a-zA-Z][\w]*)\s*(\{|$)/`, yielding group 1.
The identifier run is maximal: giving back a word character from the
greedy `[\w]*` leaves a word character where `\s*(\{|$)` must match,
which always fails, so no backtracking case is reachable. -/
def namedBlockMatch (t : List Char) : Option (List Char) :=
  match t with
  | [] => none
  | c :: cs =>
    if isAsciiLetter c then
      match (cs.dropWhile isWordChar).dropWhile isWsChar with
      | [] => some (c :: cs.takeWhile isWordChar)
      | r :: _ =>
        if r == '{' then some (c :: cs.takeWhile isWordChar) else none
    else none

/-- `text.match(LIST_REGEX)` with `LIST_REGEX = /^(\w+)\s*\($/`:
the whole text is a word run, optional whitespace, and a final `(`. -/
def listMatch (t : List Char) : Option (List Char) :=
  let w := t.takeWhile isWordChar
  if w.isEmpty then none
  else
    match (t.dropWhile isWordChar).dropWhile isWsChar with
    | ['('] => some w
    | _ => none

/-- `text.match(DICT_REGEX)` with
`DICT_REGEX = /^(\w+)\s+\[([^\]]+)\]\s*;/`, yielding groups 1 and 2.
The annotation run `[^\]]+` necessarily stops at the first `]`. -/
def dictMatch (t : List Char) : Option (List Char × List Char) :=
  let w := t.takeWhile isWordChar
  if w.isEmpty then none
  else
    let r1 := t.dropWhile isWordChar
    if (r1.takeWhile isWsChar).isEmpty then none
    else
      match r1.dropWhile isWsChar with
      | '[' :: r2 =>
        let ann := r2.takeWhile (fun c => !(c == ']'))
        if ann.isEmpty then none
        else
          match r2.dropWhile (fun c => !(c == ']')) with
          | ']' :: r3 =>
            match r3.dropWhile isWsChar with
            | ';' :: _ => some (w, ann)
            | _ => none
          | _ => none
      | _ => none

/-- `text.match(KV_REGEX)` with
`KV_REGEX = /^([a-zA-Z][\w.]*)\s+([^;{}]+);/`, yielding groups 1 and 2.
The returned value starts right after the first whitespace character
(the minimal `\s+`); the JS greedy `\s+` consumes further leading
whitespace into the separator instead, but the two differ only in
leading whitespace and the provider only ever uses `match[2].trim()`. -/
def kvMatch (t : List Char) : Option (List Char × List Char) :=
  match t with
  | [] => none
  | c :: cs =>
    if isAsciiLetter c then
      match cs.dropWhile isKvIdentChar with
      | [] => none
      | d :: ds =>
        if isWsChar d then
          let v := ds.takeWhile (fun x => !(x == ';' || x == '{' || x == '}'))
          if v.isEmpty then none
          else
            match ds.dropWhile (fun x => !(x == ';' || x == '{' || x == '}')) with
            | ';' :: _ => some (c :: cs.takeWhile isKvIdentChar, v)
            | _ => none
        else none
    else none

/-! ## Documents and the block-span resolver -/

/-- A document: the list of its lines. -/
abbrev Document := List (List Char)

/-- `findClosingBracket`'s loop over the lines `ls` (the suffix of the
document from index `j`), carrying the running `open` count.  Falls back
to `docLen - 1` when the lines run out. -/
def fcbGo (docLen : Nat) (oc cc : Char) : List (List Char) → Nat → Int → Nat
  | [], _, _ => docLen - 1
  | l :: ls, j, o =>
    if o = 0 ∧ trimChars l = [oc] then fcbGo docLen oc cc ls (j + 1) 1
    else
      let o1 : Int := if o = 0 ∧ (trimChars l).head? = some oc then 1 else o
      let o2 : Int := o1 + (countChar oc l : Int) - (countChar cc l : Int)
      if o2 = 0 then j else fcbGo docLen oc cc ls (j + 1) o2

/-- The provider's `findClosingBracket(startLine, openChar, closeChar,
initialCount)` helper. -/
def findClosingBracket (doc : Document) (startLine : Nat) (oc cc : Char)
    (init : Int) : Nat :=
  fcbGo doc.length oc cc (doc.drop startLine) startLine init

/-- Whether `findClosingBracket`'s running count would return to exactly 0
on some line of `ls` (i.e. the loop returns before the end of document). -/
def fcbStops (oc cc : Char) : List (List Char) → Int → Bool
  | [], _ => false
  | l :: ls, o =>
    if o = 0 ∧ trimChars l = [oc] then fcbStops oc cc ls 1
    else
      let o1 : Int := if o = 0 ∧ (trimChars l).head? = some oc then 1 else o
      let o2 : Int := o1 + (countChar oc l : Int) - (countChar cc l : Int)
      o2 = 0 || fcbStops oc cc ls o2

/-! ## Lookahead heuristics -/

/-- Whether the main loop (and the named-block lookahead) skips a trimmed
line: blank, or starting a `//` or `/*` comment. -/
def skipLine (t : List Char) : Bool :=
  t.isEmpty || startsWithChars "//".toList t || startsWithChars "/*".toList t

/-- The named-block brace lookahead loop:
`for (j = i + 1; j < Math.min(i + 5, lineCount); j++)`, reporting whether
an opening brace was found before a non-skippable line.  The last
argument is fuel; the loop is faithfully reproduced whenever
`fuel ≥ bound - j`, and callers always pass `fuel = bound`. -/
def braceLook (doc : Document) (bound : Nat) : Nat → Nat → Bool
  | _, 0 => false
  | j, fuel + 1 =>
    if j < bound then
      let t := trimChars (doc.getD j [])
      if t.head? = some '{' then true
      else if skipLine t then braceLook doc bound (j + 1) fuel
      else false
    else false

/-- The named-block branch's `foundOpeningBrace` lookahead for a line `i`
with no `{` on it. -/
def namedLookahead (doc : Document) (i : Nat) : Bool :=
  braceLook doc (min (i + 5) doc.length) (i + 1) (min (i + 5) doc.length)

/-- The `FoamFile` branch's unbounded forward scan for a line containing
`{` (stops at the first non-blank line not starting `//`); returns the
computed end line, defaulting to `i`.  The last argument is fuel, with
callers passing `doc.length ≥ doc.length - j`.  (This branch is
unreachable in practice because `NAMED_BLOCK_REGEX` already matches the
text `FoamFile`, but it is embedded faithfully.) -/
def foamLook (doc : Document) (i : Nat) : Nat → Nat → Nat
  | _, 0 => i
  | j, fuel + 1 =>
    if j < doc.length then
      if hasChar '{' (doc.getD j []) then findClosingBracket doc j '{' '}' 0
      else if !(trimChars (doc.getD j [])).isEmpty
              && !startsWithChars "//".toList (trimChars (doc.getD j [])) then i
      else foamLook doc i (j + 1) fuel
    else i

/-! ## Symbols -/

structure Position where
  line : Nat
  character : Nat
deriving DecidableEq, Repr

/-- A source range, `start` and `stop` mirroring vscode's start/end. -/
structure Range where
  start : Position
  stop : Position
deriving DecidableEq, Repr

/-- The `vscode.SymbolKind` values the provider uses.  The spec's
enumeration maps onto them as: Struct ↦ `Struct`, ObjectBlock ↦ `Object`,
InterfaceBlock ↦ `Interface`, ArrayList ↦ `Array`, FileHeader ↦ `File`,
ConstantUnit/ConstantLiteral ↦ `Constant`, Property ↦ `Property`,
ClassLike ↦ `Class`. -/
inductive SymbolKind where
  | File | Class | Property | Constant | Array | Struct | Interface | Object
deriving DecidableEq, Repr

/-- `vscode.DocumentSymbol`. -/
structure DocumentSymbol where
  name : List Char
  detail : List Char
  kind : SymbolKind
  range : Range
  selectionRange : Range
  children : List DocumentSymbol

/-- The line a symbol was created from (`selectionRange.start.line`). -/
def startLine (s : DocumentSymbol) : Nat := s.selectionRange.start.line

def lineLen (doc : Document) (i : Nat) : Nat := (doc.getD i []).length

/-- `line.range` of line `i`. -/
def lineRange (doc : Document) (i : Nat) : Range :=
  ⟨⟨i, 0⟩, ⟨i, lineLen doc i⟩⟩

/-- `new vscode.Range(line.range.start, document.lineAt(endLine).range.end)`. -/
def spanTo (doc : Document) (i endLine : Nat) : Range :=
  ⟨⟨i, 0⟩, ⟨endLine, lineLen doc endLine⟩⟩

/-! ## Line classification -/

/-- The text-only part of the per-line dispatch: which branch of the
`if`/`else if` chain fires for a trimmed line, with the pieces the branch
extracts.  `skip` covers blank/comment lines, the reserved-name branch's
`continue` for `;`-terminated brace-less lines, and lines matching no
pattern. -/
inductive LineShape where
  | skip
  | edgesBlock (name : List Char) (hasBrace : Bool)
  | namedBrace (name : List Char)
  | namedPlain (name : List Char)
  | listBlock (name : List Char)
  | foamFile
  | dictAssign (name ann : List Char)
  | keyValue (name value : List Char)
deriving DecidableEq, Repr

def classifyText (t : List Char) : LineShape :=
  if skipLine t then .skip
  else
    match edgesMatch t with
    | some name =>
      if endsWithSemi t && !hasChar '{' t then .skip
      else .edgesBlock name (hasChar '{' t)
    | none =>
      match namedBlockMatch t with
      | some name =>
        if hasChar '{' t then .namedBrace name else .namedPlain name
      | none =>
        match listMatch t with
        | some name => .listBlock name
        | none =>
          if t = "FoamFile".toList then .foamFile
          else
            match dictMatch t with
            | some (n, a) => .dictAssign n a
            | none =>
              match kvMatch t with
              | some (n, v) => .keyValue n v
              | none => .skip

/-- The kind/detail lookup of the named-block branch. -/
def namedKindDetail (name : List Char) : SymbolKind × List Char :=
  if name ∈ ["boundary".toList, "faces".toList, "points".toList,
             "edges".toList, "internalField".toList] then
    (.Struct, name)
  else if name ∈ ["frontAndBack".toList, "inlet".toList, "outlet".toList,
                  "walls".toList, "symmetry".toList] then
    (.Interface, "boundary".toList)
  else (.Object, "block".toList)

/-- The kind overrides of the key-value branch. -/
def kvKind (name : List Char) : SymbolKind :=
  if name = "class".toList ∨ name = "object".toList then .Class
  else if name = "version".toList ∨ name = "format".toList then .Constant
  else if name = "location".toList then .File
  else .Property

/-- The symbol (if any) the provider builds for line `i` of `doc`:
the body of the main loop up to (but not including) `pushSymbol`. -/
def classifyLine (doc : Document) (i : Nat) : Option DocumentSymbol :=
  match classifyText (trimChars (doc.getD i [])) with
  | .skip => none
  | .edgesBlock name hasB =>
    some ⟨name, name, .Struct,
      spanTo doc i (findClosingBracket doc (i + 1) '{' '}' (if hasB then 1 else 0)),
      lineRange doc i, []⟩
  | .namedBrace name =>
    some ⟨name, (namedKindDetail name).2, (namedKindDetail name).1,
      spanTo doc i (findClosingBracket doc (i + 1) '{' '}' 1),
      lineRange doc i, []⟩
  | .namedPlain name =>
    if namedLookahead doc i then
      some ⟨name, (namedKindDetail name).2, (namedKindDetail name).1,
        spanTo doc i (findClosingBracket doc (i + 1) '{' '}' 0),
        lineRange doc i, []⟩
    else none
  | .listBlock name =>
    some ⟨name, "list".toList, .Array,
      spanTo doc i (findClosingBracket doc (i + 1) '(' ')' 1),
      lineRange doc i, []⟩
  | .foamFile =>
    some ⟨"FoamFile".toList, "header".toList, .File,
      spanTo doc i (foamLook doc i (i + 1) doc.length), lineRange doc i, []⟩
  | .dictAssign n a =>
    some ⟨n, '[' :: (trimChars a ++ [']']), .Constant,
      lineRange doc i, lineRange doc i, []⟩
  | .keyValue n v =>
    some ⟨n, trimChars v, kvKind n, lineRange doc i, lineRange doc i, []⟩

/-! ## The tree assembler

The TypeScript `pushSymbol` mutates shared nodes: a symbol is appended to
its parent's `children` at *push* time, while it is still on the stack
accumulating its own children.  The functional model below attaches a
symbol to its parent at *pop* time instead, when its children list is
final; this is observationally identical because after a stack entry is
popped it is never on the stack again, so its `children` array is never
touched again, and roots receive no further pushes while a deeper root
is on the stack. -/

structure StackEntry where
  sym : DocumentSymbol
  indent : Nat

structure ScanState where
  stack : List StackEntry          -- head is the top of the stack
  roots : List DocumentSymbol      -- the `symbols` output array

def addChild (p c : DocumentSymbol) : DocumentSymbol :=
  { p with children := p.children ++ [c] }

/-- The pop loop of `pushSymbol`, fuel-indexed (each iteration removes one
stack entry, so any `fuel ≥ stack length` reproduces the loop): pop
entries with `indent ≥ ind`, each popped entry being folded (with its
accumulated children) into the entry below it, or into the output array
if it was the bottom entry. -/
def collapseFuel (ind : Nat) :
    Nat → List StackEntry → List DocumentSymbol →
    List StackEntry × List DocumentSymbol
  | _, [], r => ([], r)
  | 0, s, r => (s, r)
  | fuel + 1, e :: rest, r =>
    if ind ≤ e.indent then
      match rest with
      | [] => ([], r ++ [e.sym])
      | p :: ps =>
        collapseFuel ind fuel ({ p with sym := addChild p.sym e.sym } :: ps) r
    else (e :: rest, r)

/-- The pop loop of `pushSymbol` on a stack `s`. -/
def collapseGE (ind : Nat) (s : List StackEntry) (r : List DocumentSymbol) :
    List StackEntry × List DocumentSymbol :=
  collapseFuel ind s.length s r

/-- `pushSymbol(symbol, indent)`. -/
def pushSymbol (sym : DocumentSymbol) (ind : Nat) (st : ScanState) : ScanState :=
  ⟨⟨sym, ind⟩ :: (collapseGE ind st.stack st.roots).1,
   (collapseGE ind st.stack st.roots).2⟩

/-- One iteration of the main loop (line `i`). -/
def processLine (doc : Document) (i : Nat) (st : ScanState) : ScanState :=
  match classifyLine doc i with
  | none => st
  | some s => pushSymbol s (indentOf (doc.getD i [])) st

/-- The scan state after processing lines `0, …, k-1`. -/
def scanUpTo (doc : Document) (k : Nat) : ScanState :=
  (List.range k).foldl (fun st i => processLine doc i st) ⟨[], []⟩

/-- Draining the remaining stack at end of document (in the mutation
model the remaining entries were already attached; here their final
accumulated forms are folded in, with identical result). -/
def finalizeScan (st : ScanState) : List DocumentSymbol :=
  (collapseGE 0 st.stack st.roots).2

/-- The entry point `provideDocumentSymbols(document)`. -/
def provideDocumentSymbols (doc : Document) : List DocumentSymbol :=
  finalizeScan (scanUpTo doc doc.length)

/-! ## Flattening and order predicates -/

mutual

/-- Preorder flattening of a symbol tree. -/
def flattenTree (s : DocumentSymbol) : List DocumentSymbol :=
  s :: flattenForest s.children
termination_by sizeOf s
decreasing_by cases s; simp

/-- Preorder flattening of a forest. -/
def flattenForest : List DocumentSymbol → List DocumentSymbol
  | [] => []
  | t :: ts => flattenTree t ++ flattenForest ts
termination_by l => sizeOf l

end

mutual

/-- The start lines of a symbol's subtree, in preorder. -/
def treeLines (s : DocumentSymbol) : List Nat :=
  startLine s :: forestLines s.children
termination_by sizeOf s
decreasing_by cases s; simp

/-- The start lines of a forest, in preorder. -/
def forestLines : List DocumentSymbol → List Nat
  | [] => []
  | t :: ts => treeLines t ++ forestLines ts
termination_by l => sizeOf l

end

/-- `RExt x s s'` says `s'` is `s` with `x` appended at the rightmost
position (as last child of the last child of … at some depth) — the
shape in which the pop loop's child attachments extend a tree. -/
inductive RExt (x : DocumentSymbol) : DocumentSymbol → DocumentSymbol → Prop where
  | here (s : DocumentSymbol) :
      RExt x s { s with children := s.children ++ [x] }
  | deep (s c c' : DocumentSymbol) :
      RExt x c c' →
      RExt x { s with children := s.children ++ [c] }
            { s with children := s.children ++ [c'] }

/-- Every sibling list in the tree is in document order. -/
inductive TreeOrdered : DocumentSymbol → Prop where
  | mk (s : DocumentSymbol)
      (hsib : List.Pairwise (fun a b => startLine a ≤ startLine b) s.children)
      (hrec : ∀ c ∈ s.children, TreeOrdered c) : TreeOrdered s

/-! ## Concrete documents used by individual claims -/

/-- The document `name\n{\n  key value;\n}\n`. -/
def c5doc : Document := ["name".toList, ['{'], "  key value;".toList, ['}']]

/-- A single-line document with a reserved name in a plain statement. -/
def c1doc : Document := ["internalField uniform 0;".toList]

/-- The unit-annotated constant line of §8 of the spec. -/
def c2line : List Char := "nu [0 2 -1 0 0 0 0] 1e-05;".toList

/-- A bare identifier whose opening brace sits 5 physical lines below,
with only blank lines in between. -/
def c3doc : Document := ["name".toList, [], [], [], [], ['{'], ['}']]

/-- A stray `}` line followed by a well-formed key-value line. -/
def c8doc : Document := [['}'], "a b;".toList]

/-- A block comment whose interior line is a well-formed key-value line. -/
def c9doc : Document := ["/*".toList, "key value;".toList, "*/".toList]

/-- An unbalanced two-line document for the span resolver. -/
def c6doc : Document := [['{'], ['x']]

/-! ## Claim theorems -/

/-- Claim C1, counterexample to the parenthetical: the line
`internalField uniform 0;` does NOT match the reserved-name pattern
`EDGES_REGEX`, because the pattern requires `{`, `;`, or end-of-line
right after the keyword (and optional whitespace), while here the word
`uniform` follows. -/
theorem edges_regex_rejects_internalField_statement :
    edgesMatch "internalField uniform 0;".toList = none := rfl

/-- Claim C1 as amended: the reserved-name rule produces no node for the
line `internalField uniform 0;` (its pattern fails to match), and the
line falls through to the key-value rule, yielding one Property node
named `internalField`. -/
theorem internalField_statement_yields_property :
    provideDocumentSymbols c1doc =
      [⟨"internalField".toList, "uniform 0".toList, .Property,
        ⟨⟨0, 0⟩, ⟨0, 24⟩⟩, ⟨⟨0, 0⟩, ⟨0, 24⟩⟩, []⟩] := rfl

/-- Claim C2, counterexample: `DICT_REGEX` requires `;` (after optional
whitespace) immediately after `]`, so it does not match
`nu [0 2 -1 0 0 0 0] 1e-05;` (where ` 1e-05` intervenes); the node the
scan produces for that line has kind Property, not Constant (the
ConstantUnit kind the claim asserts). -/
theorem dict_regex_rejects_nu_line :
    dictMatch c2line = none ∧
    (provideDocumentSymbols [c2line]).map DocumentSymbol.kind =
      [SymbolKind.Property] := ⟨rfl, rfl⟩

/-- Claim C2 as amended: the line `nu [0 2 -1 0 0 0 0] 1e-05;` yields one
node, via the key-value rule: kind Property, name `nu`, detail
`[0 2 -1 0 0 0 0] 1e-05`. -/
theorem nu_line_yields_property :
    provideDocumentSymbols [c2line] =
      [⟨"nu".toList, "[0 2 -1 0 0 0 0] 1e-05".toList, .Property,
        ⟨⟨0, 0⟩, ⟨0, 26⟩⟩, ⟨⟨0, 0⟩, ⟨0, 26⟩⟩, []⟩] := rfl

/-- Claim C3, counterexample: in `c3doc`, the first non-blank, non-comment
line after `name` is the `{` at line 5, so under the claim's reading
(blank lines do not consume the window) line 0 would be a block opener;
but the code's window is 4 physical lines, the four blank lines consume
it, the lookahead fails, and the scan yields no node at all. -/
theorem lookahead_window_counts_blank_lines :
    namedLookahead c3doc 0 = false ∧
    (trimChars (c3doc.getD 5 [])).head? = some '{' ∧
    skipLine (trimChars (c3doc.getD 1 [])) = true ∧
    skipLine (trimChars (c3doc.getD 2 [])) = true ∧
    skipLine (trimChars (c3doc.getD 3 [])) = true ∧
    skipLine (trimChars (c3doc.getD 4 [])) = true ∧
    provideDocumentSymbols c3doc = [] :=
  ⟨rfl, rfl, rfl, rfl, rfl, rfl, rfl⟩

/-- Claim C4, counterexample: after the first three lines of `c5doc` the
assembler's stack holds indents `[0, 2]` from bottom to top, which is
not non-increasing — the pop loop in fact enforces the opposite
(strictly increasing) order. -/
theorem stack_not_nonincreasing_bottom_to_top :
    ((scanUpTo c5doc 3).stack.map StackEntry.indent).reverse = [0, 2] ∧
    ¬ List.Sorted (fun a b : Nat => b ≤ a) [0, 2] := ⟨rfl, by decide⟩

/-- Claim C5: scanning `name\n{\n  key value;\n}\n` returns exactly one
root node of kind Object (the spec's ObjectBlock), named `name`,
spanning lines 0–3, with exactly one Property child named `key` with
detail `value`. -/
theorem balanced_roundtrip :
    provideDocumentSymbols c5doc =
      [⟨"name".toList, "block".toList, .Object,
        ⟨⟨0, 0⟩, ⟨3, 1⟩⟩, ⟨⟨0, 0⟩, ⟨0, 4⟩⟩,
        [⟨"key".toList, "value".toList, .Property,
          ⟨⟨2, 0⟩, ⟨2, 12⟩⟩, ⟨⟨2, 0⟩, ⟨2, 12⟩⟩, []⟩]⟩] := rfl

/-- Claim C8: a stray `}` line is a no-op for the scan state (every
pattern rejects it, so the whole scan — a total function — just moves
on), and in the concrete document `}` followed by `a b;` the later
well-formed line is still processed and attached as a root Property. -/
theorem stray_close_brace_is_noop_and_scan_recovers :
    (∀ (doc : Document) (i : Nat) (st : ScanState),
        trimChars (doc.getD i []) = ['}'] → processLine doc i st = st) ∧
    provideDocumentSymbols c8doc =
      [⟨['a'], ['b'], .Property, ⟨⟨1, 0⟩, ⟨1, 4⟩⟩, ⟨⟨1, 0⟩, ⟨1, 4⟩⟩, []⟩] := by
  constructor
  · intro doc i st h
    have hc : classifyLine doc i = none := by
      unfold classifyLine
      rw [h]
      rfl
    simp [processLine, hc]
  · rfl

/-- Witness for the hypothesis of
`stray_close_brace_is_noop_and_scan_recovers`: its no-op statement
applied to the concrete stray-`}` line of `c8doc`. -/
theorem stray_close_brace_witness :
    processLine c8doc 0 ⟨[], []⟩ = ⟨[], []⟩ :=
  stray_close_brace_is_noop_and_scan_recovers.1 c8doc 0 ⟨[], []⟩ rfl

/-- Claim C9: comment skipping is per-line — in `c9doc` the opener `/*`
is skipped (its trimmed text starts the skip test), the closer `*/`
does not satisfy the comment test at all, and the interior line
`key value;` of the block comment still produces a Property node. -/
theorem comment_interior_line_produces_node :
    skipLine (trimChars (c9doc.getD 0 [])) = true ∧
    skipLine (trimChars (c9doc.getD 2 [])) = false ∧
    provideDocumentSymbols c9doc =
      [⟨"key".toList, "value".toList, .Property,
        ⟨⟨1, 0⟩, ⟨1, 10⟩⟩, ⟨⟨1, 0⟩, ⟨1, 10⟩⟩, []⟩] := ⟨rfl, rfl, rfl⟩

/-! ## The block-span resolver's permissive fallback (C6) -/

theorem fcbGo_eq_of_not_stops (oc cc : Char) :
    ∀ (ls : List (List Char)) (o : Int), fcbStops oc cc ls o = false →
      ∀ (docLen j : Nat), fcbGo docLen oc cc ls j o = docLen - 1 := by
  intro ls
  induction ls with
  | nil =>
    intro o _ docLen j
    rfl
  | cons l ls ih =>
    intro o h docLen j
    by_cases h1 : o = 0 ∧ trimChars l = [oc]
    · rw [fcbStops, if_pos h1] at h
      rw [fcbGo, if_pos h1]
      exact ih 1 h docLen (j + 1)
    · rw [fcbStops, if_neg h1] at h
      rw [fcbGo, if_neg h1]
      simp only [Bool.or_eq_false_iff, decide_eq_false_iff_not] at h
      rw [if_neg h.1]
      exact ih _ h.2 docLen (j + 1)

/-- Claim C6: for every document, start line, delimiter pair and initial
count, if the running open-count never returns to exactly 0 before the
lines run out, `findClosingBracket` returns the index of the document's
last line (`length - 1`); being a total function it never signals
failure. -/
theorem findClosingBracket_fallback (doc : Document) (startLine : Nat)
    (oc cc : Char) (init : Int)
    (h : fcbStops oc cc (doc.drop startLine) init = false) :
    findClosingBracket doc startLine oc cc init = doc.length - 1 :=
  fcbGo_eq_of_not_stops oc cc _ _ h _ _

/-- Witness for `findClosingBracket_fallback`: the unbalanced document
`c6doc` (a `{` line never closed) makes the resolver fall back to its
last line, index 1. -/
theorem findClosingBracket_fallback_witness :
    findClosingBracket c6doc 0 '{' '}' 0 = c6doc.length - 1 :=
  findClosingBracket_fallback c6doc 0 '{' '}' 0 rfl

/-! ## The named-block lookahead window (C3) -/

theorem braceLook_iff (doc : Document) (bound : Nat) :
    ∀ (fuel j : Nat), bound ≤ j + fuel →
      (braceLook doc bound j fuel = true ↔
        ∃ m, j ≤ m ∧ m < bound ∧
          (trimChars (doc.getD m [])).head? = some '{' ∧
          ∀ k, j ≤ k → k < m → skipLine (trimChars (doc.getD k [])) = true) := by
  intro fuel
  induction fuel with
  | zero =>
    intro j hb
    simp only [braceLook]
    constructor
    · intro h
      exact absurd h (by simp)
    · rintro ⟨m, hjm, hmb, -, -⟩
      omega
  | succ n ih =>
    intro j hb
    rw [braceLook]
    by_cases hj : j < bound
    · rw [if_pos hj]
      by_cases hbr : (trimChars (doc.getD j [])).head? = some '{'
      · rw [if_pos hbr]
        constructor
        · intro _
          exact ⟨j, le_refl j, hj, hbr, fun k hk1 hk2 => absurd hk1 (by omega)⟩
        · intro _
          rfl
      · rw [if_neg hbr]
        by_cases hsk : skipLine (trimChars (doc.getD j [])) = true
        · rw [if_pos hsk, ih (j + 1) (by omega)]
          constructor
          · rintro ⟨m, h1, h2, h3, h4⟩
            refine ⟨m, by omega, h2, h3, fun k hk1 hk2 => ?_⟩
            rcases Nat.eq_or_lt_of_le hk1 with rfl | hk
            · exact hsk
            · exact h4 k (by omega) hk2
          · rintro ⟨m, h1, h2, h3, h4⟩
            have hmj : m ≠ j := fun he => hbr (he ▸ h3)
            exact ⟨m, by omega, h2, h3, fun k hk1 hk2 => h4 k (by omega) hk2⟩
        · rw [if_neg hsk]
          constructor
          · intro h
            exact absurd h (by simp)
          · rintro ⟨m, h1, h2, h3, h4⟩
            rcases Nat.eq_or_lt_of_le h1 with rfl | hlt
            · exact absurd h3 hbr
            · exact absurd (h4 j (le_refl j) hlt) hsk
    · rw [if_neg hj]
      constructor
      · intro h
        exact absurd h (by simp)
      · rintro ⟨m, h1, h2, -, -⟩
        omega

/-- Claim C3 as amended: for every document and line index, the
named-block lookahead succeeds iff some line within the window of the
next 4 *physical* lines (indices `i+1 ≤ m < min (i+5) lineCount`; blank
and comment lines consume the window) starts with `{` after trimming,
with every window line before it blank or a comment. -/
theorem namedLookahead_window_spec (doc : Document) (i : Nat) :
    namedLookahead doc i = true ↔
      ∃ m, i + 1 ≤ m ∧ m < min (i + 5) doc.length ∧
        (trimChars (doc.getD m [])).head? = some '{' ∧
        ∀ k, i + 1 ≤ k → k < m → skipLine (trimChars (doc.getD k [])) = true :=
  braceLook_iff doc (min (i + 5) doc.length) (min (i + 5) doc.length)
    (i + 1) (by omega)

/-! ## Unfolding equations for the pop loop -/

theorem collapseGE_nil (ind : Nat) (r : List DocumentSymbol) :
    collapseGE ind [] r = ([], r) := rfl

theorem collapseGE_single_pop (ind : Nat) (e : StackEntry)
    (r : List DocumentSymbol) (h : ind ≤ e.indent) :
    collapseGE ind [e] r = ([], r ++ [e.sym]) := by
  simp [collapseGE, collapseFuel, h]

theorem collapseGE_cons_pop (ind : Nat) (e p : StackEntry)
    (ps : List StackEntry) (r : List DocumentSymbol) (h : ind ≤ e.indent) :
    collapseGE ind (e :: p :: ps) r =
      collapseGE ind ({ p with sym := addChild p.sym e.sym } :: ps) r := by
  simp [collapseGE, collapseFuel, h]

theorem collapseGE_cons_keep (ind : Nat) (e : StackEntry)
    (s : List StackEntry) (r : List DocumentSymbol) (h : ¬ ind ≤ e.indent) :
    collapseGE ind (e :: s) r = (e :: s, r) := by
  cases s <;> simp [collapseGE, collapseFuel, h]

/-! ## The stack indent invariant (C4) -/

theorem collapseFuel_indents (ind : Nat) :
    ∀ (fuel : Nat) (s : List StackEntry) (r : List DocumentSymbol),
      s.length ≤ fuel →
      ((collapseFuel ind fuel s r).1).map StackEntry.indent =
        (s.map StackEntry.indent).dropWhile (fun x => decide (ind ≤ x)) := by
  intro fuel
  induction fuel with
  | zero =>
    intro s r h
    have hs : s = [] := List.length_eq_zero.mp (Nat.le_zero.mp h)
    subst hs
    rfl
  | succ n ih =>
    intro s r h
    match s with
    | [] => rfl
    | e :: rest =>
      by_cases he : ind ≤ e.indent
      · match rest with
        | [] => simp [collapseFuel, he]
        | p :: ps =>
          rw [show collapseFuel ind (n + 1) (e :: p :: ps) r =
            collapseFuel ind n ({ p with sym := addChild p.sym e.sym } :: ps) r
            from by simp [collapseFuel, he]]
          rw [ih _ r (by simp at h ⊢; omega)]
          simp [he]
      · cases rest <;> simp [collapseFuel, he]

theorem collapseGE_indents (ind : Nat) (s : List StackEntry)
    (r : List DocumentSymbol) :
    ((collapseGE ind s r).1).map StackEntry.indent =
      (s.map StackEntry.indent).dropWhile (fun x => decide (ind ≤ x)) :=
  collapseFuel_indents ind s.length s r (le_refl _)

theorem dropWhile_head_false {α : Type} (p : α → Bool) :
    ∀ (l : List α) (y : α) (ys : List α), l.dropWhile p = y :: ys → p y = false := by
  intro l
  induction l with
  | nil =>
    intro y ys h
    cases h
  | cons a as ih =>
    intro y ys h
    rw [List.dropWhile_cons] at h
    by_cases ha : p a = true
    · rw [if_pos ha] at h
      exact ih y ys h
    · rw [if_neg ha] at h
      cases h
      exact Bool.eq_false_iff.mpr ha

theorem dropWhile_ge_all_lt (ind : Nat) (l : List Nat)
    (hs : List.Pairwise (fun a b => b < a) l) :
    ∀ x ∈ l.dropWhile (fun x => decide (ind ≤ x)), x < ind := by
  intro x hx
  cases hd : l.dropWhile (fun x => decide (ind ≤ x)) with
  | nil =>
    rw [hd] at hx
    cases hx
  | cons y ys =>
    have hy : y < ind := by
      have := dropWhile_head_false _ l y ys hd
      simp at this
      omega
    have hsub : List.Pairwise (fun a b => b < a) (y :: ys) :=
      hs.sublist (hd ▸ List.dropWhile_sublist _)
    rw [hd] at hx
    rcases List.mem_cons.mp hx with rfl | hx
    · exact hy
    · have := (List.pairwise_cons.mp hsub).1 x hx
      omega

/-- Claim C4 as amended: at every point of the scan (after any number of
processed lines), the assembler's stack indentation values are strictly
*increasing* from bottom to top — the pop loop removes every entry with
indent ≥ the new node's indent before pushing, so each entry's indent is
strictly greater than every entry's below it.  (The list below has the
stack top first, so the relation reads `later < earlier`.) -/
theorem scan_stack_indents_strictly_increasing (doc : Document) (k : Nat) :
    List.Pairwise (fun a b => b < a)
      ((scanUpTo doc k).stack.map StackEntry.indent) := by
  induction k with
  | zero => simp [scanUpTo]
  | succ n ih =>
    have hstep : scanUpTo doc (n + 1) = processLine doc n (scanUpTo doc n) := by
      simp [scanUpTo, List.range_succ]
    rw [hstep]
    cases hc : classifyLine doc n with
    | none => simpa [processLine, hc] using ih
    | some s =>
      simp only [processLine, hc, pushSymbol, List.map_cons]
      rw [List.pairwise_cons]
      constructor
      · intro x hx
        rw [collapseGE_indents] at hx
        exact dropWhile_ge_all_lt _ _ ih x hx
      · rw [collapseGE_indents]
        exact ih.sublist (List.dropWhile_sublist _)

/-! ## Preorder start-line trace of the scan (towards C7 and C10) -/

theorem forestLines_append : ∀ (a b : List DocumentSymbol),
    forestLines (a ++ b) = forestLines a ++ forestLines b := by
  intro a
  induction a with
  | nil =>
    intro b
    simp [forestLines]
  | cons t ts ih =>
    intro b
    simp [forestLines, ih]

theorem treeLines_rext (x : DocumentSymbol) :
    ∀ {s s' : DocumentSymbol}, RExt x s s' →
      treeLines s' = treeLines s ++ treeLines x := by
  intro s s' h
  induction h with
  | here s =>
    simp [treeLines, startLine, forestLines_append, forestLines]
  | deep s c c' _ ih =>
    simp [treeLines, startLine, forestLines_append, forestLines, ih]

theorem collapseGE_zero_absorb :
    ∀ (n ind : Nat) (s : List StackEntry) (r : List DocumentSymbol),
      s.length ≤ n →
      collapseGE 0 (collapseGE ind s r).1 (collapseGE ind s r).2 =
        collapseGE 0 s r := by
  intro n
  induction n with
  | zero =>
    intro ind s r h
    have hs : s = [] := List.length_eq_zero.mp (Nat.le_zero.mp h)
    subst hs
    rfl
  | succ n ih =>
    intro ind s r h
    match s with
    | [] => rfl
    | [e] =>
      by_cases he : ind ≤ e.indent
      · rw [collapseGE_single_pop _ _ _ he]
        show collapseGE 0 [] (r ++ [e.sym]) = collapseGE 0 [e] r
        rw [collapseGE_nil, collapseGE_single_pop _ _ _ (Nat.zero_le _)]
      · rw [collapseGE_cons_keep _ _ _ _ he]
    | e :: p :: ps =>
      by_cases he : ind ≤ e.indent
      · rw [collapseGE_cons_pop _ _ _ _ _ he,
            collapseGE_cons_pop 0 _ _ _ _ (Nat.zero_le _)]
        exact ih ind _ r (by simp at h ⊢; omega)
      · rw [collapseGE_cons_keep _ _ _ _ he]

theorem collapseGE_zero_rext (x : DocumentSymbol) :
    ∀ (s : List StackEntry) (e e' : StackEntry) (r : List DocumentSymbol),
      RExt x e.sym e'.sym →
      forestLines ((collapseGE 0 (e' :: s) r).2) =
        forestLines ((collapseGE 0 (e :: s) r).2) ++ treeLines x := by
  intro s
  induction s with
  | nil =>
    intro e e' r hre
    rw [collapseGE_single_pop _ _ _ (Nat.zero_le _),
        collapseGE_single_pop _ _ _ (Nat.zero_le _)]
    show forestLines (r ++ [e'.sym]) = forestLines (r ++ [e.sym]) ++ treeLines x
    rw [forestLines_append, forestLines_append]
    simp [forestLines, treeLines_rext x hre]
  | cons p ps ih =>
    intro e e' r hre
    rw [collapseGE_cons_pop _ _ _ _ _ (Nat.zero_le _),
        collapseGE_cons_pop _ _ _ _ _ (Nat.zero_le _)]
    exact ih { p with sym := addChild p.sym e.sym }
        { p with sym := addChild p.sym e'.sym } r
        (RExt.deep p.sym e.sym e'.sym hre)

theorem finalize_push_lines (sym : DocumentSymbol) (ind : Nat)
    (st : ScanState) (h : sym.children = []) :
    forestLines (finalizeScan (pushSymbol sym ind st)) =
      forestLines (finalizeScan st) ++ [startLine sym] := by
  have htl : treeLines sym = [startLine sym] := by
    rw [treeLines, h]
    simp [forestLines]
  have habs := collapseGE_zero_absorb st.stack.length ind st.stack st.roots
    (le_refl _)
  simp only [finalizeScan, pushSymbol]
  rw [← habs]
  cases hcg : (collapseGE ind st.stack st.roots).1 with
  | nil =>
    rw [collapseGE_single_pop _ _ _ (Nat.zero_le _), collapseGE_nil]
    show forestLines ((collapseGE ind st.stack st.roots).2 ++ [sym]) =
      forestLines (collapseGE ind st.stack st.roots).2 ++ [startLine sym]
    rw [forestLines_append]
    simp [forestLines, htl]
  | cons p ps =>
    rw [collapseGE_cons_pop _ _ _ _ _ (Nat.zero_le _)]
    have := collapseGE_zero_rext sym ps p
      { p with sym := addChild p.sym sym }
      (collapseGE ind st.stack st.roots).2 (RExt.here p.sym)
    rw [this, htl]

theorem classifyLine_some (doc : Document) (i : Nat) (s : DocumentSymbol)
    (h : classifyLine doc i = some s) :
    startLine s = i ∧ s.children = [] := by
  unfold classifyLine at h
  split at h <;>
    first
    | (cases h; exact ⟨rfl, rfl⟩)
    | cases h
    | (split at h
       · cases h; exact ⟨rfl, rfl⟩
       · cases h)

theorem scan_lines_sorted (doc : Document) (k : Nat) :
    List.Pairwise (fun a b => a < b)
        (forestLines (finalizeScan (scanUpTo doc k))) ∧
      ∀ x ∈ forestLines (finalizeScan (scanUpTo doc k)), x < k := by
  induction k with
  | zero =>
    have h0 : forestLines (finalizeScan (scanUpTo doc 0)) = [] := by
      show forestLines [] = []
      simp [forestLines]
    rw [h0]
    exact ⟨List.Pairwise.nil, fun x hx => absurd hx (List.not_mem_nil x)⟩
  | succ n ih =>
    have hstep : scanUpTo doc (n + 1) = processLine doc n (scanUpTo doc n) := by
      simp [scanUpTo, List.range_succ]
    rw [hstep]
    cases hc : classifyLine doc n with
    | none =>
      rw [show processLine doc n (scanUpTo doc n) = scanUpTo doc n from by
        simp [processLine, hc]]
      exact ⟨ih.1, fun x hx => Nat.lt_succ_of_lt (ih.2 x hx)⟩
    | some s =>
      obtain ⟨hsl, hch⟩ := classifyLine_some doc n s hc
      rw [show processLine doc n (scanUpTo doc n) =
          pushSymbol s (indentOf (doc.getD n [])) (scanUpTo doc n) from by
        simp [processLine, hc]]
      rw [finalize_push_lines s _ _ hch, hsl]
      constructor
      · apply List.pairwise_append.mpr
        refine ⟨ih.1, List.pairwise_singleton _ _, ?_⟩
        intro a ha b hb
        rw [List.mem_singleton] at hb
        subst hb
        exact ih.2 a ha
      · intro x hx
        rcases List.mem_append.mp hx with hx | hx
        · exact Nat.lt_succ_of_lt (ih.2 x hx)
        · rw [List.mem_singleton] at hx
          omega

theorem startLine_mem_forestLines :
    ∀ (F : List DocumentSymbol) (s : DocumentSymbol), s ∈ F →
      startLine s ∈ forestLines F := by
  intro F
  induction F with
  | nil =>
    intro s h
    cases h
  | cons t ts ih =>
    intro s h
    rw [show forestLines (t :: ts) = treeLines t ++ forestLines ts from by
      simp [forestLines]]
    rcases List.mem_cons.mp h with rfl | h
    · rw [show treeLines s = startLine s :: forestLines s.children from by
        simp [treeLines]]
      exact List.mem_append_left _ (List.mem_cons_self _ _)
    · exact List.mem_append_right _ (ih s h)

theorem forest_ordered_aux :
    ∀ (n : Nat) (F : List DocumentSymbol), (forestLines F).length ≤ n →
      List.Pairwise (fun a b => a < b) (forestLines F) →
      List.Pairwise (fun a b => startLine a ≤ startLine b) F ∧
        ∀ s ∈ F, TreeOrdered s := by
  intro n
  induction n with
  | zero =>
    intro F hlen _
    cases F with
    | nil => exact ⟨List.Pairwise.nil, fun s h => absurd h (List.not_mem_nil s)⟩
    | cons t ts =>
      exfalso
      rw [show forestLines (t :: ts) =
          (startLine t :: forestLines t.children) ++ forestLines ts from by
        simp [forestLines, treeLines]] at hlen
      simp at hlen
  | succ n ih =>
    intro F hlen hp
    cases F with
    | nil => exact ⟨List.Pairwise.nil, fun s h => absurd h (List.not_mem_nil s)⟩
    | cons t ts =>
      have hsplit : forestLines (t :: ts) =
          (startLine t :: forestLines t.children) ++ forestLines ts := by
        simp [forestLines, treeLines]
      rw [hsplit] at hlen hp
      obtain ⟨hp1, hp2, hcross⟩ := List.pairwise_append.mp hp
      obtain ⟨-, hpch⟩ := List.pairwise_cons.mp hp1
      have hlen1 : (forestLines t.children).length ≤ n := by
        simp [List.length_append] at hlen
        omega
      have hlen2 : (forestLines ts).length ≤ n := by
        simp [List.length_append] at hlen
        omega
      obtain ⟨hchSorted, hchOrd⟩ := ih t.children hlen1 hpch
      obtain ⟨hsib, htsOrd⟩ := ih ts hlen2 hp2
      refine ⟨List.pairwise_cons.mpr ⟨?_, hsib⟩, ?_⟩
      · intro t' ht'
        exact le_of_lt (hcross _ (List.mem_cons_self _ _) _
          (startLine_mem_forestLines ts t' ht'))
      · intro s hs
        rcases List.mem_cons.mp hs with rfl | hs
        · exact TreeOrdered.mk s hchSorted hchOrd
        · exact htsOrd s hs

/-- Claim C7: for every document, the returned forest is in document
order: every sibling list — the roots, and recursively every node's
children — is ordered by non-decreasing defining line. -/
theorem scan_preserves_document_order (doc : Document) :
    List.Pairwise (fun a b => startLine a ≤ startLine b)
        (provideDocumentSymbols doc) ∧
      ∀ s ∈ provideDocumentSymbols doc, TreeOrdered s :=
  forest_ordered_aux (forestLines (provideDocumentSymbols doc)).length
    (provideDocumentSymbols doc) (le_refl _)
    (scan_lines_sorted doc doc.length).1

theorem forestLines_eq_map :
    ∀ (n : Nat) (F : List DocumentSymbol), (forestLines F).length ≤ n →
      forestLines F = (flattenForest F).map startLine := by
  intro n
  induction n with
  | zero =>
    intro F hlen
    cases F with
    | nil => simp [forestLines, flattenForest]
    | cons t ts =>
      exfalso
      rw [show forestLines (t :: ts) =
          (startLine t :: forestLines t.children) ++ forestLines ts from by
        simp [forestLines, treeLines]] at hlen
      simp at hlen
  | succ n ih =>
    intro F hlen
    cases F with
    | nil => simp [forestLines, flattenForest]
    | cons t ts =>
      have hsplit : forestLines (t :: ts) =
          (startLine t :: forestLines t.children) ++ forestLines ts := by
        simp [forestLines, treeLines]
      have hf : flattenForest (t :: ts) =
          (t :: flattenForest t.children) ++ flattenForest ts := by
        simp [flattenForest, flattenTree]
      rw [hsplit] at hlen
      have hlen1 : (forestLines t.children).length ≤ n := by
        simp [List.length_append] at hlen
        omega
      have hlen2 : (forestLines ts).length ≤ n := by
        simp [List.length_append] at hlen
        omega
      rw [hsplit, hf, ih t.children hlen1, ih ts hlen2]
      simp

/-- Claim C10: each produced node occupies exactly one position in the
returned tree: the preorder flattening of the result has pairwise
distinct defining lines (each line produces at most one node), so in
particular no node occurs at two positions and the result is a forest. -/
theorem scan_result_nodup (doc : Document) :
    ((flattenForest (provideDocumentSymbols doc)).map startLine).Nodup ∧
      (flattenForest (provideDocumentSymbols doc)).Nodup := by
  have hmap : forestLines (provideDocumentSymbols doc) =
      (flattenForest (provideDocumentSymbols doc)).map startLine :=
    forestLines_eq_map (forestLines (provideDocumentSymbols doc)).length _
      (le_refl _)
  have hne : (forestLines (provideDocumentSymbols doc)).Nodup :=
    List.Pairwise.imp (fun h => Nat.ne_of_lt h)
      (scan_lines_sorted doc doc.length).1
  have h1 : ((flattenForest (provideDocumentSymbols doc)).map startLine).Nodup := by
    rw [← hmap]
    exact hne
  exact ⟨h1, List.Nodup.of_map startLine h1⟩

end FoamStudio
